import Mathlib

/-!
Verification of the browser-side presentation layer of the armory-library
static report viewer.  The development shallowly embeds the JavaScript
sources:

* `compare-metrics.js` — the `reorganizeMetrics` data-shaping function and
  the table-cell rendering expression of the `CompareMetrics` component;
* `routes/index.js` — the registered route table;
* `routes/single-run.js` — the `SingleRun` page shell (run resolution, the
  redirect watcher, and the static tab list).

JavaScript objects are modelled as insertion-ordered association lists
(`objGet`/`objSet`), JS `Set` as an insert-if-absent fold (`addKey`), JS
`String.prototype.split` with a one-character separator as `jsSplit`, and
`Number.prototype.toFixed` as `toFixed` over exact rationals.
-/

/-! ## A model of JavaScript `String.prototype.split` with a one-character
separator.  `splitCh sep l` returns the first segment and the list of the
remaining segments, so that the full segment list is never empty, exactly as
in JavaScript where `"".split("/")` is `[""]`. -/

def splitCh (sep : Char) : List Char → List Char × List (List Char)
  | [] => ([], [])
  | c :: cs =>
    let r := splitCh sep cs
    if c = sep then ([], r.1 :: r.2) else (c :: r.1, r.2)

/-- Segment list of a character list: first segment consed onto the rest. -/
def jsSplitData (sep : Char) (l : List Char) : List (List Char) :=
  (splitCh sep l).1 :: (splitCh sep l).2

/-- Model of JavaScript `s.split(sep)` for a one-character separator. -/
def jsSplit (s : String) (sep : Char) : List String :=
  (jsSplitData sep s.data).map String.mk

/-- Joining the separator back between segments. -/
def joinSeps (sep : Char) : List (List Char) → List Char
  | [] => []
  | s :: ss => sep :: (s ++ joinSeps sep ss)

theorem splitCh_of_not_mem {sep : Char} : ∀ {a : List Char}, sep ∉ a →
    splitCh sep a = (a, []) := by
  intro a h
  induction a with
  | nil => rfl
  | cons c cs ih =>
    have hc : ¬c = sep := fun hh => h (hh ▸ List.mem_cons_self c cs)
    have hcs : sep ∉ cs := fun hh => h (List.mem_cons_of_mem _ hh)
    simp [splitCh, hc, ih hcs]

theorem splitCh_append_sep {sep : Char} : ∀ {a : List Char}, sep ∉ a →
    ∀ b : List Char,
    splitCh sep (a ++ sep :: b) = (a, (splitCh sep b).1 :: (splitCh sep b).2) := by
  intro a h b
  induction a with
  | nil => simp [splitCh]
  | cons c cs ih =>
    have hc : ¬c = sep := fun hh => h (hh ▸ List.mem_cons_self c cs)
    have hcs : sep ∉ cs := fun hh => h (List.mem_cons_of_mem _ hh)
    simp [splitCh, hc, ih hcs]

theorem jsSplitData_pair {sep : Char} {a b : List Char}
    (ha : sep ∉ a) (hb : sep ∉ b) :
    jsSplitData sep (a ++ sep :: b) = [a, b] := by
  simp [jsSplitData, splitCh_append_sep ha, splitCh_of_not_mem hb]

theorem splitCh_reconstruct {sep : Char} :
    ∀ l : List Char, (splitCh sep l).1 ++ joinSeps sep (splitCh sep l).2 = l := by
  intro l
  induction l with
  | nil => rfl
  | cons c cs ih =>
    by_cases hc : c = sep
    · subst hc
      simp [splitCh, joinSeps, ih]
    · simp [splitCh, hc, ih]

theorem jsSplitData_length {sep : Char} :
    ∀ l : List Char, (jsSplitData sep l).length = l.count sep + 1 := by
  intro l
  induction l with
  | nil => simp [jsSplitData, splitCh]
  | cons c cs ih =>
    simp only [jsSplitData, List.length_cons] at ih
    by_cases hc : c = sep
    · subst hc
      simp [jsSplitData, splitCh, List.count_cons]
      omega
    · simp [jsSplitData, splitCh, hc, List.count_cons]
      omega

theorem string_mk_data (s : String) : String.mk s.data = s := rfl

theorem data_slash_append (c m : String) :
    (c ++ "/" ++ m).data = c.data ++ '/' :: m.data := by
  simp [String.data_append]

/-- Characterization of two-segment split results: `k.split('/')` is `[c, m]`
exactly when `k` is `c ++ "/" ++ m` and that string has exactly two
`/`-separated segments. -/
theorem jsSplit_pair_iff (k c m : String) :
    jsSplit k '/' = [c, m] ↔
      k = c ++ "/" ++ m ∧ (jsSplit (c ++ "/" ++ m) '/').length = 2 := by
  constructor
  · intro h
    have hdata : jsSplitData '/' k.data = [c.data, m.data] := by
      have h1 : (jsSplitData '/' k.data).map String.mk = [c, m] := h
      rcases hsd : jsSplitData '/' k.data with _ | ⟨x, _ | ⟨y, rest⟩⟩
      · rw [hsd] at h1; simp at h1
      · rw [hsd] at h1; simp at h1
      · rw [hsd] at h1
        rcases rest with _ | ⟨z, rest2⟩
        · simp at h1
          obtain ⟨hx, hy⟩ := h1
          have hx' : x = c.data := by rw [← hx]
          have hy' : y = m.data := by rw [← hy]
          rw [hx', hy']
        · simp at h1
    have hk : k = c ++ "/" ++ m := by
      apply String.ext
      rw [data_slash_append]
      have := @splitCh_reconstruct '/' k.data
      have h1 : (splitCh '/' k.data).1 = c.data := by
        have := congrArg List.head? hdata
        simpa [jsSplitData] using this
      have h2 : (splitCh '/' k.data).2 = [m.data] := by
        have := congrArg List.tail hdata
        simpa [jsSplitData] using this
      rw [h1, h2] at this
      simpa [joinSeps] using this.symm
    refine ⟨hk, ?_⟩
    rw [← hk, h]
    rfl
  · rintro ⟨hk, hlen⟩
    subst hk
    have hlen2 : (jsSplitData '/' (c ++ "/" ++ m).data).length = 2 := by
      simpa [jsSplit] using hlen
    have hlen' : ((c ++ "/" ++ m).data.count '/') + 1 = 2 := by
      have hJ := @jsSplitData_length '/' (c ++ "/" ++ m).data
      omega
    have hcount : (c.data.count '/') + (m.data.count '/') = 0 := by
      rw [data_slash_append] at hlen'
      simp [List.count_append, List.count_cons] at hlen'
      omega
    have hc : '/' ∉ c.data := List.count_eq_zero.mp (by omega)
    have hm : '/' ∉ m.data := List.count_eq_zero.mp (by omega)
    show (jsSplitData '/' (c ++ "/" ++ m).data).map String.mk = [c, m]
    rw [data_slash_append, jsSplitData_pair hc hm]
    simp [string_mk_data]

/-! ## JavaScript plain objects as insertion-ordered association lists.
`obj[k]` reads are `objGet`, `obj[k] = v` writes are `objSet`: an existing
key keeps its position and gets the new value, a fresh key is appended. -/

/-- Read `m[k]`, `none` when the key is absent. -/
def objGet {α : Type} (m : List (String × α)) (k : String) : Option α :=
  (m.find? (fun p => p.1 == k)).map Prod.snd

/-- Key-presence test, JavaScript `k in m`. -/
def objHas {α : Type} (m : List (String × α)) (k : String) : Bool :=
  m.any (fun p => p.1 == k)

/-- Replace the value at key `k` when an entry matches, leave others alone. -/
def updEntry {α : Type} (k : String) (v : α) (p : String × α) : String × α :=
  if p.1 == k then (k, v) else p

/-- Write `m[k] = v`: update in place when present, append when fresh. -/
def objSet {α : Type} (m : List (String × α)) (k : String) (v : α) :
    List (String × α) :=
  if objHas m k then m.map (updEntry k v) else m ++ [(k, v)]

theorem objGet_cons {α : Type} (k' : String) (v : α) (m : List (String × α))
    (k : String) :
    objGet ((k', v) :: m) k = if k' = k then some v else objGet m k := by
  by_cases h : k' = k
  · simp [objGet, List.find?_cons, h]
  · simp [objGet, List.find?_cons, h]

theorem fst_updEntry {α : Type} (k : String) (v : α) (p : String × α) :
    (updEntry k v p).1 = p.1 := by
  by_cases h : p.1 = k
  · simp [updEntry, h]
  · simp [updEntry, h]

theorem objGet_map_upd {α : Type} {m : List (String × α)} {k : String} {v : α}
    (h : objHas m k = true) :
    objGet (m.map (updEntry k v)) k = some v := by
  induction m with
  | nil => simp [objHas] at h
  | cons p m' ih =>
    rcases p with ⟨pk, pv⟩
    by_cases hp : pk = k
    · subst hp
      simp [updEntry, objGet_cons]
    · have h' : objHas m' k = true := by simpa [objHas, hp] using h
      simp [updEntry, hp, objGet_cons, ih h']

theorem objGet_map_upd_ne {α : Type} {m : List (String × α)} {k k' : String}
    {v : α} (h : k' ≠ k) :
    objGet (m.map (updEntry k v)) k' = objGet m k' := by
  induction m with
  | nil => rfl
  | cons p m' ih =>
    rcases p with ⟨pk, pv⟩
    by_cases hp : pk = k
    · subst hp
      have hk' : ¬pk = k' := fun hh => h hh.symm
      simp [updEntry, objGet_cons, hk', ih]
    · simp only [List.map_cons]
      rw [updEntry, if_neg (by simpa using hp)]
      rw [objGet_cons, objGet_cons]
      by_cases hpk' : pk = k'
      · simp [hpk']
      · simp [hpk', ih]

theorem objHas_false_forall {α : Type} {m : List (String × α)} {k : String}
    (h : ¬objHas m k = true) : ∀ p ∈ m, ¬p.1 = k := by
  intro p hp hpk
  apply h
  simp only [objHas, List.any_eq_true]
  exact ⟨p, hp, by simpa using hpk⟩

theorem objGet_objSet_self {α : Type} (m : List (String × α)) (k : String)
    (v : α) : objGet (objSet m k v) k = some v := by
  by_cases h : objHas m k = true
  · simp only [objSet, h, if_true]
    exact objGet_map_upd h
  · have hfind : m.find? (fun p => p.1 == k) = none := by
      rw [List.find?_eq_none]
      intro p hp
      simpa using objHas_false_forall h p hp
    simp [objSet, h, objGet, List.find?_append, hfind, List.find?_cons]

theorem objGet_objSet_ne {α : Type} (m : List (String × α)) {k k' : String}
    (v : α) (h : k' ≠ k) : objGet (objSet m k v) k' = objGet m k' := by
  by_cases hh : objHas m k = true
  · simp only [objSet, hh, if_true]
    exact objGet_map_upd_ne h
  · have hkk : (k == k') = false := by
      simp
      exact fun hh2 => h hh2.symm
    simp [objSet, hh, objGet, List.find?_append, List.find?_cons, hkk]

theorem mem_objSet {α : Type} {m : List (String × α)} {k : String} {v : α}
    {p : String × α} (h : p ∈ objSet m k v) : p = (k, v) ∨ p ∈ m := by
  by_cases hh : objHas m k = true
  · simp only [objSet, hh, if_true] at h
    rcases List.mem_map.mp h with ⟨q, hq, hqe⟩
    by_cases hqk : q.1 = k
    · left
      rw [← hqe, updEntry, if_pos (by simpa using hqk)]
    · right
      rw [← hqe, updEntry, if_neg (by simpa using hqk)]
      exact hq
  · simp only [objSet, hh, if_false, Bool.false_eq_true] at h
    rcases List.mem_append.mp h with h | h
    · right; exact h
    · left; simpa using h

theorem keys_objSet_of_has {α : Type} {m : List (String × α)} {k : String}
    (v : α) (h : objHas m k = true) :
    (objSet m k v).map Prod.fst = m.map Prod.fst := by
  simp only [objSet, h, if_true, List.map_map]
  exact List.map_congr_left (fun p _ => fst_updEntry k v p)

theorem keys_objSet_of_not_has {α : Type} {m : List (String × α)} {k : String}
    (v : α) (h : ¬objHas m k = true) :
    (objSet m k v).map Prod.fst = m.map Prod.fst ++ [k] := by
  simp [objSet, h]

theorem not_mem_keys_of_not_has {α : Type} {m : List (String × α)} {k : String}
    (h : ¬objHas m k = true) : k ∉ m.map Prod.fst := by
  intro hk
  rcases List.mem_map.mp hk with ⟨p, hp, hpe⟩
  exact objHas_false_forall h p hp hpe

theorem nodup_keys_objSet {α : Type} {m : List (String × α)} {k : String}
    (v : α) (h : (m.map Prod.fst).Nodup) :
    ((objSet m k v).map Prod.fst).Nodup := by
  by_cases hh : objHas m k = true
  · rw [keys_objSet_of_has v hh]
    exact h
  · rw [keys_objSet_of_not_has v hh]
    simp only [List.nodup_append, List.nodup_cons, List.nodup_nil]
    refine ⟨h, ⟨by simp, trivial⟩, ?_⟩
    intro a ha hb
    have : a = k := by simpa using hb
    exact not_mem_keys_of_not_has hh (this ▸ ha)

theorem objGet_isSome_iff {α : Type} {m : List (String × α)} {k : String} :
    (objGet m k).isSome = true ↔ ∃ v, (k, v) ∈ m := by
  constructor
  · intro h
    rcases hf : m.find? (fun p => p.1 == k) with _ | p
    · simp [objGet, hf] at h
    · have hm := List.mem_of_find?_eq_some hf
      have hk : p.1 = k := by simpa using List.find?_some hf
      refine ⟨p.2, ?_⟩
      rw [← hk]
      simpa using hm
  · rintro ⟨v, hv⟩
    rcases hf : m.find? (fun p => p.1 == k) with _ | p
    · rw [List.find?_eq_none] at hf
      exact absurd (by simp : (((k, v) : String × α).1 == k) = true) (hf _ hv)
    · simp [objGet, hf]

/-! ## Data model: run records as consumed by the viewer
(`{ info: { run_id, run_name }, data: { metrics } }`), with metric values as
exact rationals and metric maps as insertion-ordered key-value lists. -/

structure RunInfo where
  run_id : String
  run_name : String
deriving DecidableEq

structure RunData where
  metrics : List (String × Rat)
deriving DecidableEq

structure Run where
  info : RunInfo
  data : RunData
deriving DecidableEq

/-- Result shape of `reorganizeMetrics`: `{ byRunId, columns }`. -/
structure Reorganized where
  byRunId : List (String × Run)
  columns : List (String × List String)
deriving DecidableEq

/-- Key list of a run's metrics object, in enumeration order. -/
def metricsKeys (run : Run) : List String := run.data.metrics.map Prod.fst

/-- JavaScript `Set.prototype.add` on an insertion-ordered set. -/
def addKey (acc : List String) (k : String) : List String :=
  if k ∈ acc then acc else acc ++ [k]

/-- One iteration of the first loop of `reorganizeMetrics`: add the run's
metric keys to the `allMetrics` set and record the run in `byRunId`. -/
def pass1Step (acc : List String × List (String × Run)) (run : Run) :
    List String × List (String × Run) :=
  ((metricsKeys run).foldl addKey acc.1, objSet acc.2 run.info.run_id run)

/-- One iteration of the second loop of `reorganizeMetrics`: split the key,
keep two-segment non-`system` keys, skip hidden metrics and chains, then
append the chain to (or create) `columns[metric]`. -/
def processKey (hiddenMetrics hiddenChains : List String)
    (cols : List (String × List String)) (key : String) :
    List (String × List String) :=
  match jsSplit key '/' with
  | [chain, metric] =>
    if chain = "system" then cols
    else if metric ∈ hiddenMetrics ∨ chain ∈ hiddenChains then cols
    else
      match objGet cols metric with
      | some cs => objSet cols metric (cs ++ [chain])
      | none => objSet cols metric [chain]
  | _ => cols

/-- The `reorganizeMetrics` function of `compare-metrics.js`. -/
def reorganizeMetrics (runs : List Run) (hiddenMetrics hiddenChains : List String) :
    Reorganized :=
  let acc := runs.foldl pass1Step ([], [])
  { byRunId := acc.2
    columns := acc.1.foldl (processKey hiddenMetrics hiddenChains) [] }

/-- The chain list a metric name maps to in a `columns` object (empty when
the metric is absent). -/
def colsAt (cols : List (String × List String)) (m : String) : List String :=
  (objGet cols m).getD []

/-- The chain list a metric name maps to in `columns` (empty when absent). -/
def columnChains (r : Reorganized) (metric : String) : List String :=
  colsAt r.columns metric

/-- All runs' metric keys, runs in order, each run's keys in enumeration
order, duplicates included. -/
def flatKeys : List Run → List String
  | [] => []
  | r :: rs => metricsKeys r ++ flatKeys rs

/-- The `allMetrics` set of `reorganizeMetrics` as an insertion-ordered
deduplicated key list. -/
def allMetricKeys (runs : List Run) : List String := (flatKeys runs).foldl addKey []

/-- The chain a single metric key contributes to column group `m` after the
segment-shape, `system`, and hidden-list filters of `reorganizeMetrics`. -/
def chainFor (hiddenMetrics hiddenChains : List String) (m key : String) :
    Option String :=
  match jsSplit key '/' with
  | [chain, metric] =>
    if chain = "system" then none
    else if metric ∈ hiddenMetrics ∨ chain ∈ hiddenChains then none
    else if metric = m then some chain else none
  | _ => none

/-! ## The CompareMetrics table cell
(`run.data.metrics[chain + "/" + metric].toFixed(precision)`), with
`Number.prototype.toFixed` modelled on exact rationals: fixed-point,
`precision` fractional digits, ties rounded up in magnitude. -/

/-- Pad a digit string with leading zeros up to length `n`. -/
def padZeros (s : String) (n : Nat) : String :=
  String.mk (List.replicate (n - s.length) '0') ++ s

/-- Model of JavaScript `Number.prototype.toFixed` on an exact rational. -/
def toFixed (q : Rat) (p : Nat) : String :=
  let n : Nat := q.num.natAbs
  let d : Nat := q.den
  let scaled : Nat := (2 * n * 10 ^ p + d) / (2 * d)
  let ip := scaled / 10 ^ p
  let fp := scaled % 10 ^ p
  let digits := if p = 0 then toString ip else toString ip ++ "." ++ padZeros (toString fp) p
  if q.num < 0 then "-" ++ digits else digits

/-- The table-cell rendering expression of the CompareMetrics template:
`run.data.metrics[chain + "/" + metric].toFixed(precision)`.  The lookup can
miss, in which case no value reaches the formatting call and the cell's
rendering is undefined (`none`). -/
def renderCell (run : Run) (chain metric : String) (precision : Nat) :
    Option String :=
  (objGet run.data.metrics (chain ++ "/" ++ metric)).map (fun v => toFixed v precision)

/-! ## The SingleRun page shell (`routes/single-run.js`). -/

/-- Run resolution:
`evaluationData.runs.filter((run) => run.info.run_id == props.id)[0]`. -/
def resolveRun (runs : List Run) (id : String) : Option Run :=
  (runs.filter (fun r => r.info.run_id == id)).head?

/-- Body of the `watch(run, ...)` callback: when the resolved run is absent,
push a navigation to the route named `index`. -/
def singleRunWatchNav (newRun : Option Run) : Option String :=
  if newRun.isNone then some "index" else none

/-- One entry of the static tab bar of `SingleRun`. -/
structure Tab where
  dest : String
  label : String
deriving DecidableEq

/-- The static `tabs` list of `routes/single-run.js`. -/
def singleRunTabs : List Tab :=
  [ { dest := "single-run-details", label := "Details" },
    { dest := "single-run-metrics", label := "Metrics" },
    { dest := "single-run-runtime", label := "Runtime" },
    { dest := "single-run-params", label := "Parameters" },
    { dest := "single-run-samples", label := "Samples" },
    { dest := "single-run-flowchart", label := "Flowchart" } ]

/-! ## The registered route table (`routes/index.js`).  The table is two
levels deep, so child routes are embedded as a flat record. -/

/-- A nested child route record. -/
structure ChildRoute where
  path : String
  name : Option String := none
  component : Option String := none
  redirect : Option String := none
deriving DecidableEq

/-- A top-level route record. -/
structure TopRoute where
  path : String
  name : Option String := none
  component : Option String := none
  redirect : Option String := none
  props : Bool := false
  children : List ChildRoute := []
deriving DecidableEq

/-- The `routes` array of `routes/index.js`. -/
def routes : List TopRoute :=
  [ { path := "/", name := some "index", component := some "Overview" },
    { path := "/run/:id", name := some "single-run", component := some "SingleRun",
      redirect := some "single-run-details", props := true,
      children :=
        [ { path := "", name := some "single-run-details", component := some "RunDetails" },
          { path := "metrics", name := some "single-run-metrics", component := some "RunMetrics" },
          { path := "parameters", name := some "single-run-params", component := some "RunParameters" },
          { path := "pipeline", name := some "single-run-pipeline", component := some "RunPipeline" },
          { path := "artifacts", name := some "single-run-artifacts", component := some "RunArtifacts" } ] },
    { path := "/compare", name := some "compare-runs", component := some "MultipleRuns",
      children :=
        [ { path := "", redirect := some "compare-runs-metrics" },
          { path := "metrics", name := some "compare-runs-metrics", component := some "CompareMetrics" },
          { path := "diff", name := some "compare-runs-diff", component := some "RunDiff" } ] } ]

/-- Full path of a child route: an empty child path stays on the parent
path, a relative child path is joined with `/`. -/
def joinPath (parent child : String) : String :=
  if child = "" then parent else parent ++ "/" ++ child

/-- All (name, full path) pairs of the registered route table. -/
def namedRoutesOf : List TopRoute → List (String × String)
  | [] => []
  | r :: rs =>
    ((match r.name with
      | some n => [(n, r.path)]
      | none => []) ++
     r.children.filterMap (fun c => c.name.map (fun n => (n, joinPath r.path c.path)))) ++
    namedRoutesOf rs

/-- The flattened (name, full path) table of the registered routes. -/
def namedRoutes : List (String × String) := namedRoutesOf routes

/-! ## Characterization of the `allMetrics` set fold. -/

theorem mem_addKey {acc : List String} {k x : String} :
    x ∈ addKey acc k ↔ x ∈ acc ∨ x = k := by
  by_cases h : k ∈ acc
  · simp only [addKey, if_pos h]
    constructor
    · exact Or.inl
    · rintro (hx | rfl)
      · exact hx
      · exact h
  · simp [addKey, h]

theorem mem_foldl_addKey : ∀ (l acc : List String) (x : String),
    x ∈ l.foldl addKey acc ↔ x ∈ acc ∨ x ∈ l := by
  intro l
  induction l with
  | nil => simp
  | cons k ks ih =>
    intro acc x
    rw [List.foldl_cons, ih, mem_addKey]
    simp only [List.mem_cons]
    tauto

theorem nodup_addKey {acc : List String} {k : String} (h : acc.Nodup) :
    (addKey acc k).Nodup := by
  by_cases hk : k ∈ acc
  · simpa [addKey, hk] using h
  · simp only [addKey, if_neg hk]
    simp only [List.nodup_append, List.nodup_cons, List.nodup_nil]
    refine ⟨h, ⟨by simp, trivial⟩, ?_⟩
    intro a ha hb
    have : a = k := by simpa using hb
    exact hk (this ▸ ha)

theorem nodup_foldl_addKey : ∀ (l acc : List String), acc.Nodup →
    (l.foldl addKey acc).Nodup := by
  intro l
  induction l with
  | nil => intro acc h; simpa using h
  | cons k ks ih =>
    intro acc h
    rw [List.foldl_cons]
    exact ih _ (nodup_addKey h)

theorem foldl_addKey_prefix : ∀ (l acc : List String),
    ∃ r, l.foldl addKey acc = acc ++ r := by
  intro l
  induction l with
  | nil => exact fun acc => ⟨[], by simp⟩
  | cons k ks ih =>
    intro acc
    rw [List.foldl_cons]
    by_cases hk : k ∈ acc
    · rcases ih (addKey acc k) with ⟨r, hr⟩
      exact ⟨r, by rw [hr]; simp [addKey, hk]⟩
    · rcases ih (addKey acc k) with ⟨r, hr⟩
      refine ⟨[k] ++ r, ?_⟩
      rw [hr]
      simp [addKey, hk]

theorem sublist_foldl_addKey {S acc : List String} (l : List String)
    (h : S.Sublist acc) : S.Sublist (l.foldl addKey acc) := by
  rcases foldl_addKey_prefix l acc with ⟨r, hr⟩
  rw [hr]
  exact h.trans (List.sublist_append_left acc r)

theorem pair_sublist_foldl_addKey_aux :
    ∀ (v acc : List String) (b : String), b ∈ v → b ∉ acc →
    ∀ S : List String, S.Sublist acc → (S ++ [b]).Sublist (v.foldl addKey acc) := by
  intro v
  induction v with
  | nil => simp
  | cons x v' ih =>
    intro acc b hb hnacc S hS
    rw [List.foldl_cons]
    by_cases hxb : x = b
    · subst hxb
      have hak : addKey acc x = acc ++ [x] := by simp [addKey, hnacc]
      apply sublist_foldl_addKey
      rw [hak]
      exact List.Sublist.append hS (List.Sublist.refl [x])
    · have hb' : b ∈ v' := by
        rcases List.mem_cons.mp hb with h | h
        · exact absurd h.symm hxb
        · exact h
      have hnacc' : b ∉ addKey acc x := by
        intro hmem
        rcases mem_addKey.mp hmem with h | h
        · exact hnacc h
        · exact hxb h.symm
      have hS' : S.Sublist (addKey acc x) := by
        by_cases h : x ∈ acc
        · simpa [addKey, h] using hS
        · simp only [addKey, if_neg h]
          exact hS.trans (List.sublist_append_left acc [x])
      exact ih (addKey acc x) b hb' hnacc' S hS'

/-- A key pair in first-encounter order embeds, in that order, into the
insertion-ordered deduplicated key set. -/
theorem pair_sublist_foldl_addKey {u v : List String} {a b : String}
    (hau : a ∉ u) (hbu : b ∉ u) (hba : b ≠ a) (hbv : b ∈ v) :
    ([a, b]).Sublist ((u ++ a :: v).foldl addKey []) := by
  rw [List.foldl_append, List.foldl_cons]
  have hAu : a ∉ u.foldl addKey [] := by
    intro h
    rcases (mem_foldl_addKey u [] a).mp h with h | h
    · simp at h
    · exact hau h
  have hak : addKey (u.foldl addKey []) a = u.foldl addKey [] ++ [a] := by
    simp [addKey, hAu]
  rw [hak]
  have hbAu : b ∉ u.foldl addKey [] ++ [a] := by
    intro h
    rcases List.mem_append.mp h with h | h
    · rcases (mem_foldl_addKey u [] b).mp h with h | h
      · simp at h
      · exact hbu h
    · exact hba (by simpa using h)
  have hS : ([a]).Sublist (u.foldl addKey [] ++ [a]) :=
    List.sublist_append_right _ _
  exact pair_sublist_foldl_addKey_aux v _ b hbv hbAu [a] hS

/-! ## Positions: `indexOf` facts used for the first-seen ordering claim. -/

theorem indexOf_cons_ne_head {x y : String} (t : List String) (h : x ≠ y) :
    (x :: t).indexOf y = t.indexOf y + 1 := by
  have := List.indexOf_cons_ne (a := y) (b := x) t h
  simpa using this

theorem indexOf_lt_iff_decomp : ∀ {l : List String} {a b : String},
    a ∈ l → b ∈ l → a ≠ b →
    (l.indexOf a < l.indexOf b ↔
      ∃ u v, l = u ++ a :: v ∧ a ∉ u ∧ b ∉ u ∧ b ∈ v) := by
  intro l
  induction l with
  | nil => intro a b ha; simp at ha
  | cons x t ih =>
    intro a b ha hb hab
    by_cases hxa : x = a
    · subst hxa
      have hbt : b ∈ t := by
        rcases List.mem_cons.mp hb with h | h
        · exact absurd h.symm hab
        · exact h
      constructor
      · intro _
        exact ⟨[], t, rfl, by simp, by simp, hbt⟩
      · intro _
        rw [List.indexOf_cons_self, indexOf_cons_ne_head t hab]
        exact Nat.succ_pos _
    · by_cases hxb : x = b
      · subst hxb
        constructor
        · intro hlt
          exfalso
          rw [List.indexOf_cons_self,
            indexOf_cons_ne_head t (fun h => hab h.symm)] at hlt
          omega
        · rintro ⟨u, v, hl, hau, hbu, hbv⟩
          exfalso
          rcases u with _ | ⟨u0, u'⟩
          · injection hl with h1 _
            exact hab h1.symm
          · injection hl with h1 _
            exact hbu (by rw [h1]; exact List.mem_cons_self _ _)
      · have ha' : a ∈ t := by
          rcases List.mem_cons.mp ha with h | h
          · exact absurd h.symm hxa
          · exact h
        have hb' : b ∈ t := by
          rcases List.mem_cons.mp hb with h | h
          · exact absurd h.symm hxb
          · exact h
        rw [indexOf_cons_ne_head t hxa, indexOf_cons_ne_head t hxb]
        constructor
        · intro hlt
          rcases (ih ha' hb' hab).mp (by omega) with
            ⟨u, v, ht, hau, hbu, hbv⟩
          refine ⟨x :: u, v, by rw [ht]; rfl, ?_, ?_, hbv⟩
          · intro h
            rcases List.mem_cons.mp h with h | h
            · exact hxa h.symm
            · exact hau h
          · intro h
            rcases List.mem_cons.mp h with h | h
            · exact hxb h.symm
            · exact hbu h
        · rintro ⟨u, v, hl, hau, hbu, hbv⟩
          rcases u with _ | ⟨u0, u'⟩
          · injection hl with h1 _
            exact absurd h1 hxa
          · injection hl with h1 h2
            have := (ih ha' hb' hab).mpr
              ⟨u', v, h2, fun h => hau (List.mem_cons_of_mem _ h),
                fun h => hbu (List.mem_cons_of_mem _ h), hbv⟩
            omega

theorem indexOf_lt_of_pair_sublist : ∀ {l : List String} {a b : String},
    l.Nodup → ([a, b]).Sublist l → l.indexOf a < l.indexOf b := by
  intro l
  induction l with
  | nil =>
    intro a b _ h
    exact absurd (List.eq_nil_of_sublist_nil h) (by simp)
  | cons x t ih =>
    intro a b hnd h
    rw [List.nodup_cons] at hnd
    rcases hnd with ⟨hxn, hnd'⟩
    cases h with
    | cons _ h' =>
      have ha : a ∈ t := h'.subset (by simp)
      have hb : b ∈ t := h'.subset (by simp)
      have hxa : x ≠ a := fun hh => hxn (hh ▸ ha)
      have hxb : x ≠ b := fun hh => hxn (hh ▸ hb)
      rw [indexOf_cons_ne_head t hxa, indexOf_cons_ne_head t hxb]
      have := ih hnd' h'
      omega
    | cons₂ _ h' =>
      have hb : b ∈ t := h'.subset (by simp)
      have hba : x ≠ b := fun hh => hxn (hh ▸ hb)
      rw [List.indexOf_cons_self, indexOf_cons_ne_head t hba]
      exact Nat.succ_pos _

theorem indexOf_ne_of_ne : ∀ {l : List String} {a b : String},
    a ≠ b → a ∈ l → b ∈ l → l.indexOf a ≠ l.indexOf b := by
  intro l
  induction l with
  | nil => intro a b _ ha; simp at ha
  | cons x t ih =>
    intro a b hab ha hb
    by_cases hxa : x = a
    · subst hxa
      rw [List.indexOf_cons_self, indexOf_cons_ne_head t hab]
      omega
    · by_cases hxb : x = b
      · subst hxb
        rw [List.indexOf_cons_self, indexOf_cons_ne_head t (fun h => hab h.symm)]
        omega
      · have ha' : a ∈ t := by
          rcases List.mem_cons.mp ha with h | h
          · exact absurd h.symm hxa
          · exact h
        have hb' : b ∈ t := by
          rcases List.mem_cons.mp hb with h | h
          · exact absurd h.symm hxb
          · exact h
        rw [indexOf_cons_ne_head t hxa, indexOf_cons_ne_head t hxb]
        have := ih hab ha' hb'
        omega

/-! ## Characterization of the `columns` construction. -/

theorem chainFor_eq_some_iff {hm hc : List String} {m k c : String} :
    chainFor hm hc m k = some c ↔
      jsSplit k '/' = [c, m] ∧ c ≠ "system" ∧ m ∉ hm ∧ c ∉ hc := by
  constructor
  · intro h
    rcases hsp : jsSplit k '/' with _ | ⟨chain, _ | ⟨metric, _ | _⟩⟩
    · simp [chainFor, hsp] at h
    · simp [chainFor, hsp] at h
    · simp only [chainFor, hsp] at h
      by_cases h1 : chain = "system"
      · rw [if_pos h1] at h
        simp at h
      · rw [if_neg h1] at h
        by_cases h2 : metric ∈ hm ∨ chain ∈ hc
        · rw [if_pos h2] at h
          simp at h
        · rw [if_neg h2] at h
          by_cases h3 : metric = m
          · rw [if_pos h3] at h
            have hcc : chain = c := by simpa using h
            push_neg at h2
            refine ⟨?_, hcc ▸ h1, h3 ▸ h2.1, hcc ▸ h2.2⟩
            rw [hcc, h3]
          · rw [if_neg h3] at h
            simp at h
    · simp [chainFor, hsp] at h
  · rintro ⟨hsp, h1, h2, h3⟩
    have hni : ¬(m ∈ hm ∨ c ∈ hc) := by
      rintro (h | h)
      · exact h2 h
      · exact h3 h
    simp [chainFor, hsp, h1, hni]

theorem colsAt_processKey (hm hc : List String)
    (cols : List (String × List String)) (k m : String) :
    colsAt (processKey hm hc cols k) m =
      colsAt cols m ++ (chainFor hm hc m k).toList := by
  rcases hsp : jsSplit k '/' with _ | ⟨chain, _ | ⟨metric, _ | _⟩⟩
  · simp [processKey, chainFor, hsp]
  · simp [processKey, chainFor, hsp]
  · by_cases h1 : chain = "system"
    · simp [processKey, chainFor, hsp, h1]
    · by_cases h2 : metric ∈ hm ∨ chain ∈ hc
      · simp only [processKey, chainFor, hsp, if_neg h1, if_pos h2]
        simp
      · by_cases h3 : metric = m
        · subst h3
          rcases hg : objGet cols metric with _ | cs
          · simp only [processKey, chainFor, hsp, if_neg h1, if_neg h2, if_pos rfl, hg]
            simp [colsAt, objGet_objSet_self, hg]
          · simp only [processKey, chainFor, hsp, if_neg h1, if_neg h2, if_pos rfl, hg]
            simp [colsAt, objGet_objSet_self, hg]
        · have hne : m ≠ metric := fun hh => h3 hh.symm
          have hx : ∀ v : List String, objGet (objSet cols metric v) m = objGet cols m :=
            fun v => objGet_objSet_ne cols v hne
          rcases hg : objGet cols metric with _ | cs
          · simp only [processKey, chainFor, hsp, if_neg h1, if_neg h2, if_neg h3, hg]
            simp [colsAt, hx]
          · simp only [processKey, chainFor, hsp, if_neg h1, if_neg h2, if_neg h3, hg]
            simp [colsAt, hx]
  · simp [processKey, chainFor, hsp]

theorem colsAt_foldl (hm hc : List String) :
    ∀ (keys : List String) (cols : List (String × List String)) (m : String),
    colsAt (keys.foldl (processKey hm hc) cols) m =
      colsAt cols m ++ keys.filterMap (chainFor hm hc m) := by
  intro keys
  induction keys with
  | nil => simp
  | cons k ks ih =>
    intro cols m
    rw [List.foldl_cons, ih, colsAt_processKey]
    rcases h : chainFor hm hc m k with _ | c
    · simp [List.filterMap_cons, h]
    · simp [List.filterMap_cons, h]

theorem foldl_pass1Step : ∀ (runs : List Run) (s : List String)
    (t : List (String × Run)),
    runs.foldl pass1Step (s, t) =
      ((flatKeys runs).foldl addKey s,
        runs.foldl (fun t r => objSet t r.info.run_id r) t) := by
  intro runs
  induction runs with
  | nil => intro s t; simp [flatKeys]
  | cons r rs ih =>
    intro s t
    rw [List.foldl_cons, pass1Step, ih]
    simp [flatKeys, List.foldl_append]

theorem reorganize_columns (runs : List Run) (hm hc : List String) :
    (reorganizeMetrics runs hm hc).columns =
      (allMetricKeys runs).foldl (processKey hm hc) [] := by
  show (runs.foldl pass1Step ([], [])).1.foldl (processKey hm hc) [] = _
  rw [foldl_pass1Step, allMetricKeys]

theorem reorganize_byRunId (runs : List Run) (hm hc : List String) :
    (reorganizeMetrics runs hm hc).byRunId =
      runs.foldl (fun t r => objSet t r.info.run_id r) [] := by
  show (runs.foldl pass1Step ([], [])).2 = _
  rw [foldl_pass1Step]

/-- Main membership characterization: `columnChains` of the result equals the
per-key chain extraction mapped over the deduplicated key set. -/
theorem columnChains_eq (runs : List Run) (hm hc : List String) (m : String) :
    columnChains (reorganizeMetrics runs hm hc) m =
      (allMetricKeys runs).filterMap (chainFor hm hc m) := by
  show colsAt (reorganizeMetrics runs hm hc).columns m = _
  rw [reorganize_columns, colsAt_foldl]
  simp [colsAt, objGet]

theorem mem_flatKeys : ∀ {runs : List Run} {k : String},
    k ∈ flatKeys runs ↔ ∃ r ∈ runs, k ∈ metricsKeys r := by
  intro runs
  induction runs with
  | nil => simp [flatKeys]
  | cons r rs ih =>
    intro k
    simp [flatKeys, List.mem_append, ih]

theorem mem_allMetricKeys {runs : List Run} {k : String} :
    k ∈ allMetricKeys runs ↔ k ∈ flatKeys runs := by
  rw [allMetricKeys, mem_foldl_addKey]
  simp

/-- A produced chain pins down the key it came from. -/
theorem chainFor_key_eq {hm hc : List String} {m k c : String}
    (h : chainFor hm hc m k = some c) : k = c ++ "/" ++ m :=
  ((jsSplit_pair_iff k c m).mp (chainFor_eq_some_iff.mp h).1).1

theorem nodup_columnChains (runs : List Run) (hm hc : List String) (m : String) :
    (columnChains (reorganizeMetrics runs hm hc) m).Nodup := by
  rw [columnChains_eq]
  apply List.Nodup.filterMap
  · intro k1 k2 c hc1 hc2
    rw [Option.mem_def] at hc1 hc2
    rw [chainFor_key_eq hc1, chainFor_key_eq hc2]
  · exact nodup_foldl_addKey _ _ (by simp)

/-! ## Characterization of the `byRunId` construction. -/

theorem objGet_foldl_byRun : ∀ (runs : List Run) (t : List (String × Run))
    (id : String),
    objGet (runs.foldl (fun t r => objSet t r.info.run_id r) t) id =
      match (runs.filter (fun r => r.info.run_id == id)).getLast? with
      | some r => some r
      | none => objGet t id := by
  intro runs
  induction runs with
  | nil => intro t id; simp
  | cons r rs ih =>
    intro t id
    rw [List.foldl_cons, ih]
    by_cases hr : r.info.run_id = id
    · rw [List.filter_cons_of_pos (by simpa using hr)]
      rcases hl : (rs.filter (fun r => r.info.run_id == id)).getLast? with _ | r'
      · have hnil : rs.filter (fun r => r.info.run_id == id) = [] := by
          rw [← List.getLast?_eq_none_iff]
          exact hl
        rw [hnil]
        have hself : objGet (objSet t r.info.run_id r) id = some r := by
          rw [← hr]
          exact objGet_objSet_self t r.info.run_id r
        simp [hself]
      · rcases hfe : rs.filter (fun r => r.info.run_id == id) with _ | ⟨x, xs⟩
        · rw [hfe] at hl
          simp at hl
        · rw [hfe] at hl
          rw [hfe, List.getLast?_cons_cons, hl]
    · rw [List.filter_cons_of_neg (by simpa using hr)]
      have hne : objGet (objSet t r.info.run_id r) id = objGet t id :=
        objGet_objSet_ne t r (fun hh => hr hh.symm)
      rcases hl : (rs.filter (fun r => r.info.run_id == id)).getLast? with _ | r'
      · simp [hne]
      · simp [hl]

theorem nodup_keys_foldl_byRun : ∀ (runs : List Run) (t : List (String × Run)),
    (t.map Prod.fst).Nodup →
    (((runs.foldl (fun t r => objSet t r.info.run_id r) t)).map Prod.fst).Nodup := by
  intro runs
  induction runs with
  | nil => intro t h; simpa using h
  | cons r rs ih =>
    intro t h
    rw [List.foldl_cons]
    exact ih _ (nodup_keys_objSet r h)

/-! ## Non-empty chain lists invariant for `columns`. -/

theorem processKey_preserves_ne_nil {hm hc : List String}
    {cols : List (String × List String)} {k : String}
    (h : ∀ p ∈ cols, p.2 ≠ ([] : List String)) :
    ∀ p ∈ processKey hm hc cols k, p.2 ≠ ([] : List String) := by
  intro p
  rcases hsp : jsSplit k '/' with _ | ⟨chain, _ | ⟨metric, _ | _⟩⟩ <;>
    simp only [processKey, hsp]
  · exact h p
  · exact h p
  · split_ifs with h1 h2
    · exact h p
    · exact h p
    · rcases hg : objGet cols metric with _ | cs <;> simp only [hg]
      · intro hp
        rcases mem_objSet hp with hp' | hp'
        · rw [hp']
          simp
        · exact h p hp'
      · intro hp
        rcases mem_objSet hp with hp' | hp'
        · rw [hp']
          simp
        · exact h p hp'
  · exact h p

theorem foldl_processKey_ne_nil {hm hc : List String} :
    ∀ (keys : List String) (cols : List (String × List String)),
    (∀ p ∈ cols, p.2 ≠ ([] : List String)) →
    ∀ p ∈ keys.foldl (processKey hm hc) cols, p.2 ≠ ([] : List String) := by
  intro keys
  induction keys with
  | nil => intro cols h; simpa using h
  | cons k ks ih =>
    intro cols h
    rw [List.foldl_cons]
    exact ih _ (processKey_preserves_ne_nil h)

theorem mem_of_getLast?_eq_some {α : Type} : ∀ {l : List α} {a : α},
    l.getLast? = some a → a ∈ l := by
  intro l
  induction l with
  | nil => intro a h; simp at h
  | cons x t ih =>
    intro a h
    rcases t with _ | ⟨y, t'⟩
    · simp at h
      simp [h]
    · rw [List.getLast?_cons_cons] at h
      exact List.mem_cons_of_mem _ (ih h)

theorem assoc_unique_of_nodup_keys {α : Type} : ∀ {l : List (String × α)},
    (l.map Prod.fst).Nodup →
    ∀ (n : String) (v1 v2 : α), (n, v1) ∈ l → (n, v2) ∈ l → v1 = v2 := by
  intro l
  induction l with
  | nil => intro _ n v1 v2 h1; simp at h1
  | cons p t ih =>
    intro h n v1 v2 h1 h2
    rw [List.map_cons, List.nodup_cons] at h
    rcases h with ⟨hn, ht⟩
    rcases List.mem_cons.mp h1 with h1 | h1 <;> rcases List.mem_cons.mp h2 with h2 | h2
    · have h12 := h1.trans h2.symm
      exact (Prod.ext_iff.mp h12).2
    · exfalso
      apply hn
      rw [← h1]
      exact List.mem_map.mpr ⟨(n, v2), h2, rfl⟩
    · exfalso
      apply hn
      rw [← h2]
      exact List.mem_map.mpr ⟨(n, v1), h1, rfl⟩
    · exact ih ht n v1 v2 h1 h2

/-! ## Example run records used by the concrete claims and witnesses. -/

/-- A run reporting metric key `atk/acc`. -/
def runAlpha : Run :=
  { info := { run_id := "run-1", run_name := "Run 1" },
    data := { metrics := [("atk/acc", mkRat 1 2)] } }

/-- A run that does not report `atk/acc`. -/
def runBeta : Run :=
  { info := { run_id := "run-2", run_name := "Run 2" },
    data := { metrics := [("other/loss", mkRat 1 4)] } }

/-- A run whose one metric value is 0.123456789. -/
def runGamma : Run :=
  { info := { run_id := "run-3", run_name := "Run 3" },
    data := { metrics := [("chainA/metricX", mkRat 123456789 1000000000)] } }

/-- Two runs sharing the identifier `dup`. -/
def runDupA : Run :=
  { info := { run_id := "dup", run_name := "first write" },
    data := { metrics := [] } }

/-- Second run with identifier `dup`; the later one in list order. -/
def runDupB : Run :=
  { info := { run_id := "dup", run_name := "second write" },
    data := { metrics := [] } }

/-- A run reporting `a/x` (used for ordering and monotonicity witnesses). -/
def runOrd1 : Run :=
  { info := { run_id := "o1", run_name := "O1" },
    data := { metrics := [("a/x", mkRat 1 1)] } }

/-- A run reporting `b/x`, listed after `runOrd1`. -/
def runOrd2 : Run :=
  { info := { run_id := "o2", run_name := "O2" },
    data := { metrics := [("b/x", mkRat 2 1)] } }

/-! ## Claim theorems. -/

/-- C1: for every run list and hidden lists, `columns` contains chain `c`
under metric name `m` iff some run's metrics object has the key
`c ++ "/" ++ m`, that key splits on `/` into exactly two segments, `c` is not
`"system"`, `m` is not hidden, and `c` is not hidden; all other keys
contribute nothing. -/
theorem reorganizeMetrics_columns_mem_iff (runs : List Run)
    (hiddenMetrics hiddenChains : List String) (m c : String) :
    c ∈ columnChains (reorganizeMetrics runs hiddenMetrics hiddenChains) m ↔
      ((∃ r ∈ runs, (c ++ "/" ++ m) ∈ metricsKeys r) ∧
        (jsSplit (c ++ "/" ++ m) '/').length = 2 ∧
        c ≠ "system" ∧ m ∉ hiddenMetrics ∧ c ∉ hiddenChains) := by
  rw [columnChains_eq, List.mem_filterMap]
  constructor
  · rintro ⟨k, hk, hck⟩
    have h := chainFor_eq_some_iff.mp hck
    rcases (jsSplit_pair_iff k c m).mp h.1 with ⟨hkey, hlen⟩
    rw [hkey] at hk
    exact ⟨mem_flatKeys.mp (mem_allMetricKeys.mp hk), hlen, h.2.1, h.2.2.1, h.2.2.2⟩
  · rintro ⟨hmem, hlen, h1, h2, h3⟩
    refine ⟨c ++ "/" ++ m, ?_, ?_⟩
    · exact mem_allMetricKeys.mpr (mem_flatKeys.mpr hmem)
    · exact chainFor_eq_some_iff.mpr
        ⟨(jsSplit_pair_iff _ c m).mpr ⟨rfl, hlen⟩, h1, h2, h3⟩

/-- C2: a concrete run list in which `runBeta` lacks the key `atk/acc` that
`runAlpha` reports, so that (`acc`, `atk`) is a visible column while
`runBeta`'s cell lookup finds no entry and the fixed-point formatting call
receives no value: the cell-rendering expression is undefined (`none`). -/
theorem compareMetrics_missing_cell_faults :
    columnChains (reorganizeMetrics [runAlpha, runBeta] [] []) "acc" = ["atk"] ∧
    objGet runBeta.data.metrics ("atk" ++ "/" ++ "acc") = none ∧
    renderCell runBeta "atk" "acc" 2 = none := by
  refine ⟨by decide, by decide, by decide⟩

/-- C10: every metric name present as a key of `columns` maps to a non-empty
chain list. -/
theorem reorganizeMetrics_columns_ne_nil (runs : List Run)
    (hiddenMetrics hiddenChains : List String) (m : String) (cs : List String)
    (h : objGet (reorganizeMetrics runs hiddenMetrics hiddenChains).columns m =
      some cs) : cs ≠ [] := by
  rw [reorganize_columns] at h
  have hex : ∃ p, p ∈ (allMetricKeys runs).foldl (processKey hiddenMetrics hiddenChains) [] ∧
      p.2 = cs := by
    rcases hf : ((allMetricKeys runs).foldl (processKey hiddenMetrics hiddenChains) []).find?
        (fun p => p.1 == m) with _ | p
    · rw [objGet, hf] at h
      simp at h
    · rw [objGet, hf] at h
      simp at h
      exact ⟨p, List.mem_of_find?_eq_some hf, h⟩
  rcases hex with ⟨p, hp, hpc⟩
  have := foldl_processKey_ne_nil (allMetricKeys runs) [] (by simp) p hp
  rw [hpc] at this
  exact this

/-- C10 witness: a concrete columns entry is non-empty. -/
theorem reorganizeMetrics_columns_ne_nil_witness :
    objGet (reorganizeMetrics [runOrd1] [] []).columns "x" = some ["a"] ∧
    (["a"] : List String) ≠ [] :=
  ⟨by decide, reorganizeMetrics_columns_ne_nil [runOrd1] [] [] "x" ["a"] (by decide)⟩

/-- C9: hiding is monotone.  `byRunId` does not depend on the hidden lists at
all, and enlarging either hidden list (the other held fixed) never introduces
a new column entry: every (metric, chain) entry visible under the larger list
is visible under the smaller one. -/
theorem reorganizeMetrics_hiding_monotone (runs : List Run)
    (hm hm' hc hc' : List String) :
    ((reorganizeMetrics runs hm hc).byRunId =
      (reorganizeMetrics runs hm' hc').byRunId) ∧
    (hm ⊆ hm' → ∀ m c : String,
      c ∈ columnChains (reorganizeMetrics runs hm' hc) m →
      c ∈ columnChains (reorganizeMetrics runs hm hc) m) ∧
    (hc ⊆ hc' → ∀ m c : String,
      c ∈ columnChains (reorganizeMetrics runs hm hc') m →
      c ∈ columnChains (reorganizeMetrics runs hm hc) m) := by
  refine ⟨rfl, ?_, ?_⟩
  · intro hsub m c h
    rw [columnChains_eq, List.mem_filterMap] at h ⊢
    rcases h with ⟨k, hk, hck⟩
    rcases chainFor_eq_some_iff.mp hck with ⟨hsp, h1, h2, h3⟩
    exact ⟨k, hk, chainFor_eq_some_iff.mpr ⟨hsp, h1, fun hmem => h2 (hsub hmem), h3⟩⟩
  · intro hsub m c h
    rw [columnChains_eq, List.mem_filterMap] at h ⊢
    rcases h with ⟨k, hk, hck⟩
    rcases chainFor_eq_some_iff.mp hck with ⟨hsp, h1, h2, h3⟩
    exact ⟨k, hk, chainFor_eq_some_iff.mpr ⟨hsp, h1, h2, fun hmem => h3 (hsub hmem)⟩⟩

/-- C9 witness: a concrete instance of metric-hiding monotonicity. -/
theorem reorganizeMetrics_hiding_monotone_witness :
    (([] : List String) ⊆ ["loss"]) ∧
    ("a" ∈ columnChains (reorganizeMetrics [runOrd1] ["loss"] []) "x") ∧
    ("a" ∈ columnChains (reorganizeMetrics [runOrd1] [] []) "x") :=
  ⟨List.nil_subset _, by decide,
    (reorganizeMetrics_hiding_monotone [runOrd1] [] ["loss"] [] []).2.1
      (List.nil_subset _) "x" "a" (by decide)⟩

/-- C3: each chain appears at most once in `columns[m]`, and chains appear in
first-seen order: `c1` precedes `c2` in `columns[m]` exactly when the key
`c1 ++ "/" ++ m` is first encountered before `c2 ++ "/" ++ m` while the runs
are iterated in order and each run's metric keys in enumeration order. -/
theorem reorganizeMetrics_columns_first_seen_order (runs : List Run)
    (hm hc : List String) (m : String) :
    (columnChains (reorganizeMetrics runs hm hc) m).Nodup ∧
    (∀ c1 c2 : String, c1 ≠ c2 →
      c1 ∈ columnChains (reorganizeMetrics runs hm hc) m →
      c2 ∈ columnChains (reorganizeMetrics runs hm hc) m →
      ((columnChains (reorganizeMetrics runs hm hc) m).indexOf c1 <
          (columnChains (reorganizeMetrics runs hm hc) m).indexOf c2 ↔
        (flatKeys runs).indexOf (c1 ++ "/" ++ m) <
          (flatKeys runs).indexOf (c2 ++ "/" ++ m))) := by
  have hnd := nodup_columnChains runs hm hc m
  refine ⟨hnd, ?_⟩
  have hkey : ∀ c : String, c ∈ columnChains (reorganizeMetrics runs hm hc) m →
      chainFor hm hc m (c ++ "/" ++ m) = some c ∧ (c ++ "/" ++ m) ∈ flatKeys runs := by
    intro c hcmem
    rw [columnChains_eq, List.mem_filterMap] at hcmem
    rcases hcmem with ⟨k, hk, hck⟩
    have hke := chainFor_key_eq hck
    rw [hke] at hck hk
    exact ⟨hck, mem_allMetricKeys.mp hk⟩
  have hkne : ∀ c1 c2 : String, c1 ≠ c2 →
      chainFor hm hc m (c1 ++ "/" ++ m) = some c1 →
      chainFor hm hc m (c2 ++ "/" ++ m) = some c2 →
      (c1 ++ "/" ++ m) ≠ (c2 ++ "/" ++ m) := by
    intro c1 c2 hne hf1 hf2 he
    rw [he] at hf1
    exact hne (Option.some.inj (hf1.symm.trans hf2))
  have hmain : ∀ c1 c2 : String, c1 ≠ c2 →
      c1 ∈ columnChains (reorganizeMetrics runs hm hc) m →
      c2 ∈ columnChains (reorganizeMetrics runs hm hc) m →
      (flatKeys runs).indexOf (c1 ++ "/" ++ m) <
        (flatKeys runs).indexOf (c2 ++ "/" ++ m) →
      (columnChains (reorganizeMetrics runs hm hc) m).indexOf c1 <
        (columnChains (reorganizeMetrics runs hm hc) m).indexOf c2 := by
    intro c1 c2 hne h1 h2 hlt
    rcases hkey c1 h1 with ⟨hf1, hm1⟩
    rcases hkey c2 h2 with ⟨hf2, hm2⟩
    have hkne12 := hkne c1 c2 hne hf1 hf2
    rcases (indexOf_lt_iff_decomp hm1 hm2 hkne12).mp hlt with
      ⟨u, v, hdec, hau, hbu, hbv⟩
    have hsub : ([c1 ++ "/" ++ m, c2 ++ "/" ++ m]).Sublist (allMetricKeys runs) := by
      rw [allMetricKeys, hdec]
      exact pair_sublist_foldl_addKey hau hbu (fun hh => hkne12 hh.symm) hbv
    have hsub2 : ([c1, c2]).Sublist
        (columnChains (reorganizeMetrics runs hm hc) m) := by
      rw [columnChains_eq]
      have hfm := hsub.filterMap (chainFor hm hc m)
      simpa [List.filterMap_cons, hf1, hf2] using hfm
    exact indexOf_lt_of_pair_sublist hnd hsub2
  intro c1 c2 hne h1 h2
  constructor
  · intro hlt
    by_contra hnot
    rcases hkey c1 h1 with ⟨hf1, hm1⟩
    rcases hkey c2 h2 with ⟨hf2, hm2⟩
    have hkne12 := hkne c1 c2 hne hf1 hf2
    have hdiff := indexOf_ne_of_ne hkne12 hm1 hm2
    have hlt2 : (flatKeys runs).indexOf (c2 ++ "/" ++ m) <
        (flatKeys runs).indexOf (c1 ++ "/" ++ m) := by omega
    have := hmain c2 c1 (fun hh => hne hh.symm) h2 h1 hlt2
    omega
  · exact hmain c1 c2 hne h1 h2

/-- C3 witness: with `a/x` reported by the first run and `b/x` by the second,
`a` precedes `b` in `columns[x]` and `a/x` is first encountered first. -/
theorem reorganizeMetrics_columns_first_seen_order_witness :
    ("a" : String) ≠ "b" ∧
    ((columnChains (reorganizeMetrics [runOrd1, runOrd2] [] []) "x").indexOf "a" <
        (columnChains (reorganizeMetrics [runOrd1, runOrd2] [] []) "x").indexOf "b" ↔
      (flatKeys [runOrd1, runOrd2]).indexOf ("a" ++ "/" ++ "x") <
        (flatKeys [runOrd1, runOrd2]).indexOf ("b" ++ "/" ++ "x")) :=
  ⟨by decide,
    (reorganizeMetrics_columns_first_seen_order [runOrd1, runOrd2] [] [] "x").2
      "a" "b" (by decide) (by decide) (by decide)⟩

/-- C4: `byRunId` has pairwise distinct keys, its lookup at any identifier is
the last run in list order carrying that identifier (last write wins), any
found run bears the identifier, and an entry exists exactly for the
identifiers occurring in the run list. -/
theorem reorganizeMetrics_byRunId_spec (runs : List Run) (hm hc : List String) :
    (((reorganizeMetrics runs hm hc).byRunId.map Prod.fst).Nodup) ∧
    (∀ id : String, objGet (reorganizeMetrics runs hm hc).byRunId id =
      (runs.filter (fun r => r.info.run_id == id)).getLast?) ∧
    (∀ (id : String) (r : Run),
      objGet (reorganizeMetrics runs hm hc).byRunId id = some r →
      r.info.run_id = id) ∧
    (∀ id : String,
      (∃ r, (id, r) ∈ (reorganizeMetrics runs hm hc).byRunId) ↔
        id ∈ runs.map (fun r => r.info.run_id)) := by
  have hget : ∀ id : String, objGet (reorganizeMetrics runs hm hc).byRunId id =
      (runs.filter (fun r => r.info.run_id == id)).getLast? := by
    intro id
    rw [reorganize_byRunId, objGet_foldl_byRun]
    rcases hl : (runs.filter (fun r => r.info.run_id == id)).getLast? with _ | r
    · rw [hl]
      rfl
    · rw [hl]
  refine ⟨?_, hget, ?_, ?_⟩
  · rw [reorganize_byRunId]
    exact nodup_keys_foldl_byRun runs [] (by simp)
  · intro id r h
    rw [hget] at h
    have hmem := mem_of_getLast?_eq_some h
    have := (List.mem_filter.mp hmem).2
    simpa using this
  · intro id
    rw [← objGet_isSome_iff, hget, List.getLast?_isSome]
    constructor
    · intro h
      rcases hne : runs.filter (fun r => r.info.run_id == id) with _ | ⟨r, rest⟩
      · exact absurd hne h
      · have hr : r ∈ runs.filter (fun r => r.info.run_id == id) := by
          rw [hne]
          exact List.mem_cons_self _ _
        have hrr := List.mem_filter.mp hr
        exact List.mem_map.mpr ⟨r, hrr.1, by simpa using hrr.2⟩
    · intro h
      rcases List.mem_map.mp h with ⟨r, hr, hid⟩
      intro hnil
      rw [List.filter_eq_nil_iff] at hnil
      exact hnil r hr (by simpa using hid)

/-- C4 witness: with two runs sharing identifier `dup`, the entry maps to the
later run and bears the identifier. -/
theorem reorganizeMetrics_byRunId_spec_witness :
    objGet (reorganizeMetrics [runDupA, runDupB] [] []).byRunId "dup" =
      some runDupB ∧
    runDupB.info.run_id = "dup" :=
  ⟨by decide,
    (reorganizeMetrics_byRunId_spec [runDupA, runDupB] [] []).2.2.1 "dup" runDupB
      (by decide)⟩

/-- C5: the SingleRun shell resolves its run as the first run whose
`info.run_id` equals the `id` prop, and whenever resolution yields no run the
watcher triggers a navigation to the route named `index`. -/
theorem singleRun_resolution_spec (runs : List Run) (id : String) :
    resolveRun runs id = runs.find? (fun r => r.info.run_id == id) ∧
    (resolveRun runs id = none →
      singleRunWatchNav (resolveRun runs id) = some "index") := by
  constructor
  · induction runs with
    | nil => rfl
    | cons r rs ih =>
      by_cases h : r.info.run_id = id
      · simp [resolveRun, List.filter_cons, List.find?_cons, h]
      · simp [resolveRun, List.filter_cons, List.find?_cons, h]
  · intro h
    rw [h]
    rfl

/-- C5 witness: an identifier matching no run triggers the index redirect. -/
theorem singleRun_resolution_spec_witness :
    resolveRun [runAlpha] "does-not-exist" = none ∧
    singleRunWatchNav (resolveRun [runAlpha] "does-not-exist") = some "index" :=
  ⟨by decide, (singleRun_resolution_spec [runAlpha] "does-not-exist").2 (by decide)⟩

/-- C6: the ten route names each occur exactly once in the flattened route
table, name resolution to a full path is unique, the `single-run` route
redirects to `single-run-details`, and the `/compare` route's empty child
path redirects to `compare-runs-metrics`. -/
theorem routes_names_unique_and_redirects :
    namedRoutes.map Prod.fst =
      ["index", "single-run", "single-run-details", "single-run-metrics",
        "single-run-params", "single-run-pipeline", "single-run-artifacts",
        "compare-runs", "compare-runs-metrics", "compare-runs-diff"] ∧
    (namedRoutes.map Prod.fst).Nodup ∧
    (∀ (n p1 p2 : String), (n, p1) ∈ namedRoutes → (n, p2) ∈ namedRoutes →
      p1 = p2) ∧
    (∃ r ∈ routes, r.name = some "single-run" ∧
      r.redirect = some "single-run-details") ∧
    (∃ r ∈ routes, r.path = "/compare" ∧
      ∃ ch ∈ r.children, ch.path = "" ∧
        ch.redirect = some "compare-runs-metrics") := by
  refine ⟨by decide, by decide, ?_, by decide, by decide⟩
  exact assoc_unique_of_nodup_keys (by decide)

/-- C6 witness: the path resolution of a concrete name is unique. -/
theorem routes_names_unique_and_redirects_witness :
    (("single-run", "/run/:id") ∈ namedRoutes) ∧
    ("/run/:id" : String) = "/run/:id" :=
  ⟨by decide,
    routes_names_unique_and_redirects.2.2.1 "single-run" "/run/:id" "/run/:id"
      (by decide) (by decide)⟩

/-- C7: the SingleRun tab bar declares exactly six destinations in order;
`single-run-runtime`, `single-run-samples` and `single-run-flowchart` are not
registered route names, while the registered `single-run-pipeline` and
`single-run-artifacts` have no tab entry. -/
theorem singleRun_tabs_route_mismatch :
    singleRunTabs.map Tab.dest =
      ["single-run-details", "single-run-metrics", "single-run-runtime",
        "single-run-params", "single-run-samples", "single-run-flowchart"] ∧
    "single-run-runtime" ∉ namedRoutes.map Prod.fst ∧
    "single-run-samples" ∉ namedRoutes.map Prod.fst ∧
    "single-run-flowchart" ∉ namedRoutes.map Prod.fst ∧
    "single-run-pipeline" ∈ namedRoutes.map Prod.fst ∧
    "single-run-pipeline" ∉ singleRunTabs.map Tab.dest ∧
    "single-run-artifacts" ∈ namedRoutes.map Prod.fst ∧
    "single-run-artifacts" ∉ singleRunTabs.map Tab.dest := by
  decide

/-- C8: the CompareMetrics cell formats the metric value in fixed-point
notation with `precision` fractional digits and standard rounding; for the
value 0.123456789 precision 2 renders `0.12` and precision 4 renders
`0.1235`. -/
theorem compareMetrics_cell_precision :
    renderCell runGamma "chainA" "metricX" 2 = some "0.12" ∧
    renderCell runGamma "chainA" "metricX" 4 = some "0.1235" ∧
    renderCell runGamma "chainA" "metricX" 2 ≠
      renderCell runGamma "chainA" "metricX" 4 := by
  decide
